import Mathlib

/-!
Verification of the request-admission and priority-scheduling core of the
fitness-tracker application.

The development shallowly embeds, faithfully to the Python source:
  * `fitness_sessions/queue.py`   (`SessionJoinQueue`)       — FIFO queue,
  * `trainer_bookings/min_heap.py` (`MinHeap`)               — binary min-heap,
  * `fitness_sessions/views.py`   (`process_join_queue`)     — FIFO admission,
  * `trainer_bookings/views.py`   (`process_booking_queue`)  — priority scheduling.

Python lists become Lean `List`s, Django model rows become records in a
`List`-modelled store, and Django's `order_by` on a single column becomes a
stable sort (`List.insertionSort`) of the store list (the relative order of
rows that tie on the sort key is not specified by the ORM; the store list
order stands in for the row order the database happens to return).
Priority scores (Python floats holding epoch-second values) are modelled as
integers: only their linear order is ever used by the code.
-/

namespace FT

/-! ### FIFO queue — `fitness_sessions/queue.py`, class `SessionJoinQueue`

The backing field `self.items` is the `List`; the front of the queue is the
head of the list.  `dequeue` returns the pair (returned value, new backing
list); `peek`, `is_empty` and `size` do not mutate and are embedded as pure
functions. -/

/-- Method `enqueue`: `self.items.append(item)`. -/
def enqueue (items : List α) (x : α) : List α := items ++ [x]

/-- Method `is_empty`: `len(self.items) == 0`. -/
def qIsEmpty (items : List α) : Bool := items.length == 0

/-- Method `size`: `len(self.items)`. -/
def qSize (items : List α) : Nat := items.length

/-- Method `dequeue`: `self.items.pop(0)` when non-empty, else `return None`. -/
def dequeue : List α → Option α × List α
  | [] => (none, [])
  | x :: rest => (some x, rest)

/-- Method `peek`: `self.items[0]` when non-empty, else `return None`. -/
def peek : List α → Option α
  | [] => none
  | x :: _ => some x

/-- Result of a Python call, distinguishing a normal return (Python `None`
is `value none`) from a raised `EmptyError`.  The spec asserts that the
empty-container operations signal `EmptyError`; this type lets that
assertion be stated.  The source methods always return normally. -/
inductive PyRet (α : Type) : Type
  | value : Option α → PyRet α
  | emptyError : PyRet α
deriving DecidableEq

/-- Call-level view of `dequeue` (returned value only). -/
def dequeueRet (items : List α) : PyRet α := PyRet.value (dequeue items).1

/-- Call-level view of `peek`. -/
def peekRet (items : List α) : PyRet α := PyRet.value (peek items)

/-! ### Min-heap — `trainer_bookings/min_heap.py`, class `MinHeap`

The backing field `self.heap` is a `List Item`; an item is the pair
`(priority_score, booking)`, embedded as `Int × Nat` (score, payload tag).
Python indexes with machine integers; `get_parent_index(i) = (i-1)//2` is
negative exactly for `i = 0`, so `has_parent i` is embedded as `i ≠ 0` and
parent indices are taken only at `i ≠ 0`, where Nat `(i-1)/2` agrees with
Python.  Element reads `self.heap[i]` are embedded with `List.getD`; every
read performed by the algorithms below is guarded in-bounds, as in the
source (where an out-of-bounds read would raise). -/

/-- Score type: `priority_score` (a Python float holding whole
epoch-seconds); only its linear order is used. -/
abbrev Score := Int

/-- Heap item: `(priority_score, booking_object)`. -/
abbrev Item := Score × Nat

/-- Read `self.heap[i]`. -/
def gi (h : List Item) (i : Nat) : Item := h.getD i (0, 0)

/-- Method `swap(index1, index2)`: simultaneous assignment
`heap[i], heap[j] = heap[j], heap[i]`. -/
def swapL (h : List Item) (i j : Nat) : List Item :=
  (h.set i (gi h j)).set j (gi h i)

theorem swapL_length (h : List Item) (i j : Nat) :
    (swapL h i j).length = h.length := by
  simp [swapL]

/-- Here `get_left_child_index(i) = 2*i + 1`, and `has_left_child` compares it
with `len(self.heap)`; similarly for the right child.  The index of the
smaller child chosen by `heapify_down`: the left child, unless a right
child exists and its score is strictly smaller. -/
def smallerChild (h : List Item) (i : Nat) : Nat :=
  if 2 * i + 2 < h.length ∧ (gi h (2 * i + 2)).1 < (gi h (2 * i + 1)).1 then
    2 * i + 2
  else
    2 * i + 1

theorem smallerChild_gt (h : List Item) (i : Nat) : i < smallerChild h i := by
  unfold smallerChild
  split <;> omega

theorem smallerChild_lt_length (h : List Item) (i : Nat)
    (hl : 2 * i + 1 < h.length) : smallerChild h i < h.length := by
  unfold smallerChild
  split <;> omega

/-- While-loop of `heapify_down(index)`: while the node has a left child,
pick the smaller child (the right one only when its score is strictly
below the left one's), stop if the current score is strictly below the
chosen child's, else swap down and continue from the child.  One unit of
fuel is spent per iteration; `none` means the fuel ran out before the
loop exited (`heapifyDownLoop_isSome` below proves `h.length + 1` units
always suffice, so the loop terminates on every finite heap). -/
def heapifyDownLoop : Nat → List Item → Nat → Option (List Item)
  | 0, _, _ => none
  | fuel + 1, h, i =>
    if 2 * i + 1 < h.length then
      if (gi h i).1 < (gi h (smallerChild h i)).1 then some h
      else heapifyDownLoop fuel (swapL h i (smallerChild h i)) (smallerChild h i)
    else some h

/-- Method `heapify_down(index)`: run the while-loop; the fallback list of `getD`
is never used, by `heapifyDownLoop_isSome` below. -/
def heapifyDown (h : List Item) (i : Nat) : List Item :=
  (heapifyDownLoop (h.length + 1) h i).getD h

/-- While-loop of `heapify_up(index)`: while the node has a parent
(`(index-1)//2 >= 0`, i.e. `index ≠ 0`) and its score is strictly below
the parent's, swap with the parent and continue there.  One unit of fuel
per iteration; `i + 1` units always suffice since the index strictly
decreases. -/
def heapifyUpLoop : Nat → List Item → Nat → Option (List Item)
  | 0, _, _ => none
  | fuel + 1, h, i =>
    if i ≠ 0 ∧ (gi h i).1 < (gi h ((i - 1) / 2)).1 then
      heapifyUpLoop fuel (swapL h i ((i - 1) / 2)) ((i - 1) / 2)
    else some h

/-- Method `heapify_up(index)`: run the while-loop; the fallback list of `getD`
is never used, by `heapifyUpLoop_isSome` below. -/
def heapifyUp (h : List Item) (i : Nat) : List Item :=
  (heapifyUpLoop (i + 1) h i).getD h

/-- Method `insert(item)`: append, then `heapify_up` from the last index. -/
def heapInsert (h : List Item) (x : Item) : List Item :=
  heapifyUp (h ++ [x]) ((h ++ [x]).length - 1)

/-- Method `get_min()`: the root without mutation, `None` when empty. -/
def getMin (h : List Item) : Option Item :=
  if h.length == 0 then none else some (gi h 0)

/-- Method `extract_min()`: `None` when empty; otherwise save the root, move the
last element to the root, pop the last slot, and `heapify_down(0)` unless
the heap became empty.  Returns (returned value, new backing list). -/
def extractMin (h : List Item) : Option Item × List Item :=
  if h.length == 0 then (none, h)
  else
    let m := gi h 0
    let h1 := (h.set 0 (gi h (h.length - 1))).dropLast
    let h2 := if h1.length == 0 then h1 else heapifyDown h1 0
    (some m, h2)

/-- Call-level view of `extract_min` (returned value only). -/
def extractMinRet (h : List Item) : PyRet Item := PyRet.value (extractMin h).1

/-- Call-level view of `get_min`. -/
def getMinRet (h : List Item) : PyRet Item := PyRet.value (getMin h)

/-- Heap-order property of the backing array: every element other than the
root has a score at least its parent's score (`heap[(j-1)//2][0] ≤
heap[j][0]` for every in-range index `j ≥ 1`), equivalently parent-score ≤
child-score for every existing parent/child pair. -/
def heapInv (h : List Item) : Prop :=
  ∀ j, j < h.length → j ≠ 0 → (gi h ((j - 1) / 2)).1 ≤ (gi h j).1

/-- Sift-up intermediate shape: the array is heap-ordered on every edge not
ending at `i`, and (when `i` is not the root) the children of `i` are
bounded below by the parent of `i`. -/
def upInv (h : List Item) (i : Nat) : Prop :=
  (∀ j, j < h.length → j ≠ 0 → j ≠ i →
    (gi h ((j - 1) / 2)).1 ≤ (gi h j).1) ∧
  (i ≠ 0 → ∀ c, c < h.length → (c - 1) / 2 = i →
    (gi h ((i - 1) / 2)).1 ≤ (gi h c).1)

/-- Sift-down intermediate shape: the array is heap-ordered on every edge
not starting at `i`, and (when `i` is not the root) the children of `i`
are bounded below by the parent of `i`. -/
def downInv (h : List Item) (i : Nat) : Prop :=
  (∀ j, j < h.length → j ≠ 0 → (j - 1) / 2 ≠ i →
    (gi h ((j - 1) / 2)).1 ≤ (gi h j).1) ∧
  (i ≠ 0 → ∀ c, c < h.length → (c - 1) / 2 = i →
    (gi h ((i - 1) / 2)).1 ≤ (gi h c).1)

/-- One call against the `MinHeap` instance: an `insert` or an
`extract_min` (whose returned value the history discards). -/
inductive HeapOp : Type
  | ins : Item → HeapOp
  | ext : HeapOp

/-- Effect of one call on the backing array. -/
def heapStep (h : List Item) (op : HeapOp) : List Item :=
  match op with
  | HeapOp.ins x => heapInsert h x
  | HeapOp.ext => (extractMin h).2

/-- State of the backing array after a sequence of calls against an
initially empty `MinHeap`. -/
def runHeap (ops : List HeapOp) : List Item :=
  ops.foldl heapStep []

/-! ### FIFO admission — `fitness_sessions/views.py`, `process_join_queue`

A `JoinRequestQueue` row: primary key `id`, the requesting `user`, the
arrival `timestamp` (`ts`), and the outcome flags `processed`/`success`
(both default `False`).  The per-session state carries the session's
`capacity`, the `SessionParticipant` rows (as the list of their users, in
creation order — `get_current_participants_count` is its length), and the
`JoinRequestQueue` rows in row order. -/

structure Request : Type where
  id : Nat
  user : Nat
  ts : Nat
  processed : Bool
  success : Bool
deriving DecidableEq, Repr

instance : Inhabited Request := ⟨⟨0, 0, 0, false, false⟩⟩

/-- Per-session store: `Session.capacity`, the `SessionParticipant` rows,
and the `JoinRequestQueue` rows. -/
structure AdmState : Type where
  cap : Nat
  parts : List Nat
  reqs : List Request
deriving DecidableEq, Repr

/-- Write a request's outcome flags back by primary key
(`current_request.processed = p; current_request.success = s;
current_request.save()`). -/
def markReq (reqs : List Request) (rid : Nat) (p s : Bool) : List Request :=
  reqs.map fun r =>
    if r.id = rid then { r with processed := p, success := s } else r

/-- Drain loop of `process_join_queue` over the dequeued pending requests:
admit while `current_count < capacity`, else mark the failure and break.
`SessionParticipant` declares `unique_together (session, user)`, so
`SessionParticipant.objects.create` raises `IntegrityError` when the
request's user is already a participant; the exception propagates out of
the pass (the loop has no try/except), leaving the writes made so far in
place (each `create`/`save` commits on its own) and the current request
unmarked.  The second component records whether the pass raised. -/
def processPendingReqs (s : AdmState) : List Request → AdmState × Bool
  | [] => (s, false)
  | r :: rest =>
    if s.parts.length < s.cap then
      if r.user ∈ s.parts then (s, true)
      else
        processPendingReqs
          { s with
            parts := s.parts ++ [r.user]
            reqs := markReq s.reqs r.id true true }
          rest
    else
      ({ s with reqs := markReq s.reqs r.id true false }, false)

/-- Queryset `JoinRequestQueue.objects.filter(session=…, processed=False)
.order_by(timestamp)`: the unprocessed rows, stably sorted by
timestamp. -/
def pendingReqsOf (reqs : List Request) : List Request :=
  List.insertionSort (fun a b => a.ts ≤ b.ts) (reqs.filter fun r => !r.processed)

/-- Function `process_join_queue(session_id)`: load the pending requests
in FIFO order into the queue, then drain.  The flag records whether the
drain raised an `IntegrityError`. -/
def processJoinQueuePass (s : AdmState) : AdmState × Bool :=
  processPendingReqs s (pendingReqsOf s.reqs)

/-- Session state after a `process_join_queue` call: the writes the pass
committed, whether or not it raised. -/
def processJoinQueue (s : AdmState) : AdmState :=
  (processJoinQueuePass s).1

/-- Marks written by one drain: `free` is the remaining capacity when the
drain starts; the first `free` pending requests are marked successful, the
next one (if any) unsuccessful, the rest are not written. -/
def marksOf : List Request → Nat → List (Nat × Bool)
  | [], _ => []
  | r :: _, 0 => [(r.id, false)]
  | r :: rest, f + 1 => (r.id, true) :: marksOf rest f

/-- Replay a list of `(id, success)` outcome writes against the request
store. -/
def applyMarks (reqs : List Request) (ms : List (Nat × Bool)) : List Request :=
  ms.foldl (fun acc m => markReq acc m.1 true m.2) reqs

/-- Effect of a list of `(id, success)` outcome writes on one request
row. -/
def markFun (ms : List (Nat × Bool)) (r : Request) : Request :=
  ms.foldl
    (fun r m =>
      if r.id = m.1 then { r with processed := true, success := m.2 } else r)
    r

/-- One external event touching a session: a `process_join_queue` pass, or
a new `JoinRequestQueue` row created by `join_session`. -/
inductive AdmOp : Type
  | pass : AdmOp
  | newReq : Request → AdmOp

/-- Effect of one admission event on the per-session state. -/
def admStep (s : AdmState) (op : AdmOp) : AdmState :=
  match op with
  | AdmOp.pass => processJoinQueue s
  | AdmOp.newReq r => { s with reqs := s.reqs ++ [r] }

/-- Replay a sequence of admission events. -/
def runAdm (s : AdmState) (ops : List AdmOp) : AdmState :=
  ops.foldl admStep s

/-! ### Priority scheduling — `trainer_bookings/views.py`,
`process_booking_queue`

A `TrainerBooking` row: primary key `id`, `trainer` id, requested slot
(`date`, `time`), `priority_score` (`score`), `created_at` (`created`),
`status`, and `processed_at`.  The store is the table of bookings in row
order. -/

inductive BStatus : Type
  | pending | confirmed | rejected | completed | cancelled
deriving DecidableEq, Repr

structure Booking : Type where
  id : Nat
  trainer : Nat
  date : Nat
  time : Nat
  score : Score
  created : Nat
  status : BStatus
  processedAt : Option Nat
deriving DecidableEq, Repr

instance : Inhabited Booking :=
  ⟨⟨0, 0, 0, 0, 0, 0, BStatus.pending, none⟩⟩

/-- Write a booking's status back by primary key (`booking.status = st;
booking.processed_at = now; booking.save()`). -/
def setStatus (store : List Booking) (bid : Nat) (st : BStatus) (now : Nat) :
    List Booking :=
  store.map fun b =>
    if b.id = bid then { b with status := st, processedAt := some now } else b

/-- Conflict test of the loop body: does any tracked `(date, time)` pair in
`confirmed_times` equal the booking's requested slot? -/
def slotMem (conf : List (Nat × Nat)) (d t : Nat) : Bool :=
  conf.any fun ct => d == ct.1 && t == ct.2

/-- Main loop of `process_booking_queue`: for each pending booking in
order, reject on a slot conflict with `confirmed_times`, otherwise confirm
and append the slot to `confirmed_times`; either way count it. -/
def processBookingsLoop (store : List Booking) (now : Nat) :
    List Booking → List (Nat × Nat) → Nat → List Booking × Nat
  | [], _, cnt => (store, cnt)
  | b :: rest, conf, cnt =>
    if slotMem conf b.date b.time then
      processBookingsLoop (setStatus store b.id BStatus.rejected now) now
        rest conf (cnt + 1)
    else
      processBookingsLoop (setStatus store b.id BStatus.confirmed now) now
        rest (conf ++ [(b.date, b.time)]) (cnt + 1)

/-- Queryset `TrainerBooking.objects.filter(trainer_id=…, status=pending)
.order_by(priority_score)`: the trainer's pending rows, stably sorted by
`priority_score` alone (the explicit `order_by` replaces the model's
`Meta.ordering`). -/
def pendingBookingsFor (store : List Booking) (tid : Nat) : List Booking :=
  List.insertionSort (fun a b => a.score ≤ b.score)
    (store.filter fun b => b.trainer == tid && b.status == BStatus.pending)

/-- Function `process_booking_queue(trainer_id)`: returns the updated store and the
processed count. -/
def processBookingQueue (store : List Booking) (tid : Nat) (now : Nat) :
    List Booking × Nat :=
  let pend := pendingBookingsFor store tid
  if pend.length = 0 then (store, 0)
  else processBookingsLoop store now pend [] 0

/-- Ordering the spec prescribes for one scheduling pass: `priorityScore`
ascending with ties broken by `createdAt` ascending.  Used only to compare
the code's processing order against the spec's words. -/
def specBookingOrder (store : List Booking) (tid : Nat) : List Booking :=
  List.insertionSort
    (fun a b => a.score < b.score ∨ (a.score = b.score ∧ a.created ≤ b.created))
    (store.filter fun b => b.trainer == tid && b.status == BStatus.pending)

/-- Status marks written by one scheduling pass, given the slots already in
`confirmed_times`. -/
def bmarksOf : List Booking → List (Nat × Nat) → List (Nat × BStatus)
  | [], _ => []
  | b :: rest, conf =>
    if slotMem conf b.date b.time then
      (b.id, BStatus.rejected) :: bmarksOf rest conf
    else
      (b.id, BStatus.confirmed) :: bmarksOf rest (conf ++ [(b.date, b.time)])

/-- Replay a list of `(id, status)` writes against the booking store. -/
def applyBMarks (store : List Booking) (ms : List (Nat × BStatus))
    (now : Nat) : List Booking :=
  ms.foldl (fun acc m => setStatus acc m.1 m.2 now) store

/-- Effect of a list of `(id, status)` writes on one booking row. -/
def bMarkFun (ms : List (Nat × BStatus)) (now : Nat) (b : Booking) :
    Booking :=
  ms.foldl
    (fun b m =>
      if b.id = m.1 then { b with status := m.2, processedAt := some now }
      else b)
    b

instance : IsTotal Booking (fun a b => a.score ≤ b.score) :=
  ⟨fun a b => le_total a.score b.score⟩

instance : IsTrans Booking (fun a b => a.score ≤ b.score) :=
  ⟨fun _ _ _ hab hbc => le_trans hab hbc⟩

/-- First booking row with the given primary key. -/
def lookupId (store : List Booking) (bid : Nat) : Option Booking :=
  store.find? fun b => b.id == bid

/-- One external event touching a trainer's bookings: a
`process_booking_queue` pass, or a new pending `TrainerBooking` row
created by `create_booking`. -/
inductive BookOp : Type
  | pass : Nat → Nat → BookOp
  | newBooking : Booking → BookOp

/-- Effect of one booking event on the booking table. -/
def bookStep (store : List Booking) (op : BookOp) : List Booking :=
  match op with
  | BookOp.pass tid now => (processBookingQueue store tid now).1
  | BookOp.newBooking b => store ++ [b]

/-- Replay a sequence of booking events. -/
def runBook (store : List Booking) (ops : List BookOp) : List Booking :=
  ops.foldl bookStep store

end FT

/-! ## Theorems -/

namespace FT

/-! ### Helper lemmas on indexed reads and swaps -/

theorem gi_eq_getElem? (h : List Item) (i : Nat) :
    gi h i = (h[i]?).getD (0, 0) :=
  List.getD_eq_getElem?_getD h i (0, 0)

theorem gi_of_getElem? {h : List Item} {i : Nat} {x : Item}
    (hx : h[i]? = some x) : gi h i = x := by
  rw [gi_eq_getElem?, hx]; rfl

theorem gi_swapL_snd {h : List Item} {i j : Nat} (hij : i ≠ j)
    (hi : i < h.length) : gi (swapL h i j) i = gi h j := by
  have : (swapL h i j)[i]? = some (gi h j) := by
    rw [swapL, List.getElem?_set_ne (Ne.symm hij), List.getElem?_set_self hi]
  exact gi_of_getElem? this

theorem gi_swapL_fst {h : List Item} {i j : Nat} (hj : j < h.length) :
    gi (swapL h i j) j = gi h i := by
  have : (swapL h i j)[j]? = some (gi h i) := by
    rw [swapL, List.getElem?_set_self]
    simpa using hj
  exact gi_of_getElem? this

theorem gi_swapL_other {h : List Item} {i j k : Nat} (hki : k ≠ i)
    (hkj : k ≠ j) : gi (swapL h i j) k = gi h k := by
  rw [gi_eq_getElem?, gi_eq_getElem?, swapL,
    List.getElem?_set_ne (Ne.symm hkj), List.getElem?_set_ne (Ne.symm hki)]

theorem gi_append_left {h : List Item} {k : Nat} (hk : k < h.length)
    (x : Item) : gi (h ++ [x]) k = gi h k := by
  rw [gi_eq_getElem?, gi_eq_getElem?, List.getElem?_append, if_pos hk]

theorem gi_append_last (h : List Item) (x : Item) :
    gi (h ++ [x]) h.length = x :=
  gi_of_getElem? (List.getElem?_concat_length h x)

/-! ### Claim C9 — the empty-container branch mutates nothing -/

/-- C9: `dequeue()` and `peek()` on an empty `SessionJoinQueue`, and
`extract_min()` and `get_min()` on an empty `MinHeap`, each return `None`
and leave the container's backing list unchanged (the two pure readers
`peek`/`get_min` are embedded as functions of the list and perform no
write at all). -/
theorem C9_empty_branch_mutates_nothing (α : Type) :
    dequeue ([] : List α) = (none, []) ∧
    peek ([] : List α) = none ∧
    extractMin [] = (none, []) ∧
    getMin [] = none :=
  ⟨rfl, rfl, rfl, rfl⟩

/-! ### Claim C6 — what the empty-container operations signal

The claim states the four operations signal `EmptyError`.  The source of
all four instead executes `return None`: the call outcome is a normal
return of `None`, never a raised error. -/

/-- C6 counterexample: on concrete empty containers, each of the four
operations returns normally rather than signalling `EmptyError`. -/
theorem C6_counterexample :
    dequeueRet ([] : List Nat) ≠ PyRet.emptyError ∧
    peekRet ([] : List Nat) ≠ PyRet.emptyError ∧
    extractMinRet [] ≠ PyRet.emptyError ∧
    getMinRet [] ≠ PyRet.emptyError := by
  refine ⟨?_, ?_, ?_, ?_⟩ <;> decide

/-- C6 amended: calling `dequeue()` or `peek()` on an empty
`SessionJoinQueue`, and `extract_min()` or `get_min()` on an empty
`MinHeap`, returns `None` (a normal return, not an `EmptyError`). -/
theorem C6_empty_returns_none (α : Type) :
    dequeueRet ([] : List α) = PyRet.value none ∧
    peekRet ([] : List α) = PyRet.value none ∧
    extractMinRet [] = PyRet.value none ∧
    getMinRet [] = PyRet.value none :=
  ⟨rfl, rfl, rfl, rfl⟩

/-! ### Claim C10 — termination of `heapify_down` / `extract_min` -/

theorem heapifyDownLoop_isSome :
    ∀ (fuel : Nat) (h : List Item) (i : Nat), h.length ≤ fuel + i →
      0 < fuel → (heapifyDownLoop fuel h i).isSome = true := by
  intro fuel
  induction fuel with
  | zero => intro h i _ hf; omega
  | succ n ih =>
    intro h i hlen _
    show (heapifyDownLoop (n + 1) h i).isSome = true
    rw [heapifyDownLoop]
    split
    · next hl =>
      split
      · rfl
      · have hc1 := smallerChild_gt h i
        have hc2 := smallerChild_lt_length h i hl
        exact ih (swapL h i (smallerChild h i)) (smallerChild h i)
          (by rw [swapL_length]; omega) (by omega)
    · rfl

theorem heapifyDownLoop_congr :
    ∀ (f₁ f₂ : Nat) (h : List Item) (i : Nat),
      h.length ≤ f₁ + i → h.length ≤ f₂ + i → 0 < f₁ → 0 < f₂ →
      heapifyDownLoop f₁ h i = heapifyDownLoop f₂ h i := by
  intro f₁
  induction f₁ with
  | zero => intro f₂ h i _ _ hf _; omega
  | succ n ih =>
    intro f₂ h i h₁ h₂ _ hf₂
    obtain ⟨m, rfl⟩ : ∃ m, f₂ = m + 1 := ⟨f₂ - 1, by omega⟩
    show heapifyDownLoop (n + 1) h i = heapifyDownLoop (m + 1) h i
    rw [heapifyDownLoop, heapifyDownLoop]
    split
    · next hl =>
      split
      · rfl
      · have hc1 := smallerChild_gt h i
        have hc2 := smallerChild_lt_length h i hl
        exact ih m (swapL h i (smallerChild h i)) (smallerChild h i)
          (by rw [swapL_length]; omega) (by rw [swapL_length]; omega)
          (by omega) (by omega)
    · rfl

/-- C10: the `heapify_down` while-loop terminates on every finite heap: run
with `h.length + 1` units of fuel (one per iteration) it never exhausts
them, and it produces exactly the array `heapify_down` computes — each
iteration either exits or moves on to a strictly larger child index
bounded by the array length (a swap also happens when the smaller child's
score merely equals the current node's).  `extract_min` calls this loop at
most once, so it terminates as well. -/
theorem C10_heapify_down_terminates (h : List Item) (i : Nat) :
    heapifyDownLoop (h.length + 1) h i = some (heapifyDown h i) := by
  have hs := heapifyDownLoop_isSome (h.length + 1) h i (by omega) (by omega)
  obtain ⟨r, hr⟩ := Option.isSome_iff_exists.mp hs
  rw [heapifyDown, hr]
  rfl

/-! ### Claim C7 — the step behaviour of `heapify_down` -/

/-- One unfolding of `heapify_down`: the loop exits when no left child
exists or the current score is strictly below the chosen child's, and
otherwise swaps with the chosen child and continues there. -/
theorem heapifyDown_step (h : List Item) (i : Nat) :
    heapifyDown h i =
      if 2 * i + 1 < h.length then
        if (gi h i).1 < (gi h (smallerChild h i)).1 then h
        else heapifyDown (swapL h i (smallerChild h i)) (smallerChild h i)
      else h := by
  rw [heapifyDown, heapifyDownLoop]
  split
  · next hl =>
    split
    · rfl
    · have hc1 := smallerChild_gt h i
      have hc2 := smallerChild_lt_length h i hl
      rw [heapifyDown]
      rw [heapifyDownLoop_congr h.length ((swapL h i (smallerChild h i)).length + 1)
        (swapL h i (smallerChild h i)) (smallerChild h i)
        (by rw [swapL_length]; omega) (by rw [swapL_length]; omega)
        (by omega) (by omega)]
      have hs := heapifyDownLoop_isSome ((swapL h i (smallerChild h i)).length + 1)
        (swapL h i (smallerChild h i)) (smallerChild h i)
        (by rw [swapL_length]; omega) (by omega)
      obtain ⟨r, hr⟩ := Option.isSome_iff_exists.mp hs
      rw [hr]
      rfl
  · rfl

/-- C7 counterexample: in the two-element heap `[(5,·), (5,·)]` the only
child of the root has a score equal to (hence not strictly smaller than)
the root's, yet `heapify_down 0` swaps instead of stopping, so the claim
"a downward swap occurs only while that child's score is strictly
smaller" fails. -/
theorem C7_counterexample :
    ¬ (gi [((5 : Int), 0), (5, 1)] 1).1 < (gi [((5 : Int), 0), (5, 1)] 0).1 ∧
    heapifyDown [((5 : Int), 0), (5, 1)] 0 ≠ [((5 : Int), 0), (5, 1)] := by
  refine ⟨by decide, by decide⟩

/-- C7 amended: during sift-down the current node is compared against the
smaller of its two children — the right child is chosen over the left only
when its score is strictly smaller — the loop stops when no children
remain or the current node's score is strictly below the chosen child's,
and a downward swap occurs whenever the chosen child's score is less than
or EQUAL to the current node's (the source breaks only on a strict `<` of
the current node). -/
theorem C7_sift_down_behaviour (h : List Item) (i : Nat) :
    (h.length ≤ 2 * i + 1 → heapifyDown h i = h) ∧
    (2 * i + 1 < h.length →
      (2 * i + 2 < h.length →
        (smallerChild h i = 2 * i + 2 ↔
          (gi h (2 * i + 2)).1 < (gi h (2 * i + 1)).1)) ∧
      (h.length ≤ 2 * i + 2 → smallerChild h i = 2 * i + 1) ∧
      ((gi h i).1 < (gi h (smallerChild h i)).1 → heapifyDown h i = h) ∧
      ((gi h (smallerChild h i)).1 ≤ (gi h i).1 →
        heapifyDown h i =
          heapifyDown (swapL h i (smallerChild h i)) (smallerChild h i))) := by
  constructor
  · intro hle
    rw [heapifyDown_step, if_neg (by omega)]
  · intro hl
    refine ⟨?_, ?_, ?_, ?_⟩
    · intro hr
      unfold smallerChild
      constructor
      · intro hc
        by_contra hlt
        rw [if_neg (by tauto)] at hc
        omega
      · intro hlt
        rw [if_pos ⟨hr, hlt⟩]
    · intro hr
      unfold smallerChild
      rw [if_neg (by omega)]
    · intro hlt
      rw [heapifyDown_step, if_pos hl, if_pos hlt]
    · intro hle
      rw [heapifyDown_step, if_pos hl, if_neg (not_lt.mpr hle)]

/-- C7 witness: on the concrete heap `[(5,0), (5,1)]` at the root, the
chosen child's score equals the root's, and the amended theorem yields the
swap-and-continue equation. -/
theorem C7_witness :
    (gi [((5 : Int), 0), (5, 1)]
        (smallerChild [((5 : Int), 0), (5, 1)] 0)).1 ≤
      (gi [((5 : Int), 0), (5, 1)] 0).1 ∧
    heapifyDown [((5 : Int), 0), (5, 1)] 0 =
      heapifyDown
        (swapL [((5 : Int), 0), (5, 1)] 0
          (smallerChild [((5 : Int), 0), (5, 1)] 0))
        (smallerChild [((5 : Int), 0), (5, 1)] 0) :=
  ⟨by decide,
    (((C7_sift_down_behaviour [((5 : Int), 0), (5, 1)] 0).2
      (by decide)).2.2.2) (by decide)⟩

/-! ### Claim C5 — heap validity under arbitrary interleavings

The shape lemmas follow the textbook argument: `heapify_up` keeps the
array heap-ordered except along the edge into the moving index (plus a
grandparent bound on its children), `heapify_down` keeps it heap-ordered
except along the edges out of the moving index, and each swap re-creates
the corresponding shape one level further. -/

theorem upInv_swap (h : List Item) (i : Nat) (hi0 : i ≠ 0)
    (hil : i < h.length)
    (hlt : (gi h i).1 < (gi h ((i - 1) / 2)).1) (hinv : upInv h i) :
    upInv (swapL h i ((i - 1) / 2)) ((i - 1) / 2) := by
  obtain ⟨h1, h2⟩ := hinv
  have hpi : (i - 1) / 2 < i := by omega
  have hpl : (i - 1) / 2 < h.length := by omega
  have gpi : gi (swapL h i ((i - 1) / 2)) i = gi h ((i - 1) / 2) :=
    gi_swapL_snd (by omega) hil
  have gpp : gi (swapL h i ((i - 1) / 2)) ((i - 1) / 2) = gi h i :=
    gi_swapL_fst hpl
  constructor
  · intro j hj hj0 hjp
    rw [swapL_length] at hj
    by_cases hji : j = i
    · subst hji
      rw [gpi, gpp]
      exact le_of_lt hlt
    · have gj : gi (swapL h i ((i - 1) / 2)) j = gi h j :=
        gi_swapL_other hji hjp
      by_cases hpj : (j - 1) / 2 = i
      · rw [hpj, gj, gpi]
        exact h2 hi0 j hj hpj
      · by_cases hpj2 : (j - 1) / 2 = (i - 1) / 2
        · rw [hpj2, gj, gpp]
          have := h1 j hj hj0 hji
          rw [hpj2] at this
          exact le_trans (le_of_lt hlt) this
        · have gpar : gi (swapL h i ((i - 1) / 2)) ((j - 1) / 2) =
              gi h ((j - 1) / 2) := gi_swapL_other hpj hpj2
          rw [gj, gpar]
          exact h1 j hj hj0 hji
  · intro hp0 c hc hcp
    rw [swapL_length] at hc
    have gpar : gi (swapL h i ((i - 1) / 2)) (((i - 1) / 2 - 1) / 2) =
        gi h (((i - 1) / 2 - 1) / 2) := gi_swapL_other (by omega) (by omega)
    by_cases hci : c = i
    · rw [hci, gpar, gpi]
      exact h1 ((i - 1) / 2) hpl hp0 (by omega)
    · have hcnep : c ≠ (i - 1) / 2 := by omega
      have gc : gi (swapL h i ((i - 1) / 2)) c = gi h c :=
        gi_swapL_other hci hcnep
      rw [gpar, gc]
      have e1 : (gi h (((i - 1) / 2 - 1) / 2)).1 ≤ (gi h ((i - 1) / 2)).1 :=
        h1 ((i - 1) / 2) hpl hp0 (by omega)
      have e2 : (gi h ((i - 1) / 2)).1 ≤ (gi h c).1 := by
        have := h1 c hc (by omega) hci
        rwa [hcp] at this
      exact le_trans e1 e2

theorem heapifyUpLoop_isSome :
    ∀ (fuel : Nat) (h : List Item) (i : Nat), i < fuel →
      (heapifyUpLoop fuel h i).isSome = true := by
  intro fuel
  induction fuel with
  | zero => intro h i hf; omega
  | succ n ih =>
    intro h i hf
    show (heapifyUpLoop (n + 1) h i).isSome = true
    rw [heapifyUpLoop]
    split
    · next hg =>
      exact ih (swapL h i ((i - 1) / 2)) ((i - 1) / 2) (by omega)
    · rfl

theorem heapifyUpLoop_inv :
    ∀ (fuel : Nat) (h : List Item) (i : Nat), i < fuel → i < h.length →
      upInv h i → ∀ r, heapifyUpLoop fuel h i = some r → heapInv r := by
  intro fuel
  induction fuel with
  | zero => intro h i hf; omega
  | succ n ih =>
    intro h i hf hl hinv r hr
    rw [heapifyUpLoop] at hr
    split at hr
    · next hg =>
      exact ih (swapL h i ((i - 1) / 2)) ((i - 1) / 2) (by omega)
        (by rw [swapL_length]; omega) (upInv_swap h i hg.1 hl hg.2 hinv) r hr
    · next hg =>
      obtain rfl : h = r := Option.some.inj hr
      intro j hj hj0
      by_cases hji : j = i
      · rw [not_and_or] at hg
        rcases hg with h0 | hle
        · exact absurd (hji.symm ▸ (not_not.mp h0)) hj0
        · rw [hji]
          exact not_lt.mp hle
      · exact hinv.1 j hj hj0 hji

theorem heapInsert_inv (h : List Item) (x : Item) (hinv : heapInv h) :
    heapInv (heapInsert h x) := by
  rw [heapInsert, heapifyUp]
  have hidx : (h ++ [x]).length - 1 = h.length := by simp
  have hlen : (h ++ [x]).length = h.length + 1 := by simp
  rw [hidx]
  have hup : upInv (h ++ [x]) h.length := by
    constructor
    · intro j hj hj0 hjn
      rw [hlen] at hj
      have hjl : j < h.length := by omega
      have hparl : (j - 1) / 2 < h.length := by omega
      rw [gi_append_left hjl, gi_append_left hparl]
      exact hinv j hjl hj0
    · intro hn0 c hc hcp
      rw [hlen] at hc
      exfalso
      have hc0 : c ≠ 0 := by
        intro h0
        rw [h0] at hcp
        simp at hcp
        omega
      omega
  have hs := heapifyUpLoop_isSome (h.length + 1) (h ++ [x]) h.length (by omega)
  obtain ⟨r, hr⟩ := Option.isSome_iff_exists.mp hs
  rw [hr]
  exact heapifyUpLoop_inv (h.length + 1) (h ++ [x]) h.length (by omega)
    (by omega) hup r hr

theorem smallerChild_le_left (h : List Item) (i : Nat) :
    (gi h (smallerChild h i)).1 ≤ (gi h (2 * i + 1)).1 := by
  unfold smallerChild
  split
  · next hc => exact le_of_lt hc.2
  · exact le_refl _

theorem smallerChild_le_right (h : List Item) (i : Nat)
    (hr : 2 * i + 2 < h.length) :
    (gi h (smallerChild h i)).1 ≤ (gi h (2 * i + 2)).1 := by
  unfold smallerChild
  split
  · exact le_refl _
  · next hc =>
    rw [not_and_or] at hc
    rcases hc with hc | hc
    · exact absurd hr hc
    · exact not_lt.mp hc

theorem smallerChild_cases (h : List Item) (i : Nat) :
    smallerChild h i = 2 * i + 1 ∨ smallerChild h i = 2 * i + 2 := by
  unfold smallerChild
  split
  · exact Or.inr rfl
  · exact Or.inl rfl

theorem downInv_swap (h : List Item) (i : Nat) (hl : 2 * i + 1 < h.length)
    (hle : (gi h (smallerChild h i)).1 ≤ (gi h i).1) (hinv : downInv h i) :
    downInv (swapL h i (smallerChild h i)) (smallerChild h i) := by
  have hc1 : i < smallerChild h i := smallerChild_gt h i
  have hc2 : smallerChild h i < h.length := smallerChild_lt_length h i hl
  have hcc : smallerChild h i = 2 * i + 1 ∨ smallerChild h i = 2 * i + 2 :=
    smallerChild_cases h i
  have parc : (smallerChild h i - 1) / 2 = i := by omega
  have gc : gi (swapL h i (smallerChild h i)) (smallerChild h i) = gi h i :=
    gi_swapL_fst hc2
  have giw : gi (swapL h i (smallerChild h i)) i = gi h (smallerChild h i) :=
    gi_swapL_snd (by omega) (by omega)
  constructor
  · intro j hj hj0 hjpar
    rw [swapL_length] at hj
    by_cases hjc : j = smallerChild h i
    · rw [hjc, parc, giw, gc]
      exact hle
    · by_cases hji : j = i
      · have hi0 : i ≠ 0 := by omega
        have gpar : gi (swapL h i (smallerChild h i)) ((i - 1) / 2) =
            gi h ((i - 1) / 2) := gi_swapL_other (by omega) (by omega)
        rw [hji, gpar, giw]
        exact hinv.2 hi0 (smallerChild h i) hc2 parc
      · by_cases hjpi : (j - 1) / 2 = i
        · have gj : gi (swapL h i (smallerChild h i)) j = gi h j :=
            gi_swapL_other hji hjc
          rw [hjpi, gj, giw]
          rcases hcc with hcl | hcr
          · have hj2 : j = 2 * i + 2 := by omega
            rw [hj2]
            exact smallerChild_le_right h i (by omega)
          · have hj1 : j = 2 * i + 1 := by omega
            rw [hj1]
            exact smallerChild_le_left h i
        · have gj : gi (swapL h i (smallerChild h i)) j = gi h j :=
            gi_swapL_other hji hjc
          have gpar : gi (swapL h i (smallerChild h i)) ((j - 1) / 2) =
              gi h ((j - 1) / 2) := gi_swapL_other hjpi hjpar
          rw [gj, gpar]
          exact hinv.1 j hj hj0 hjpi
  · intro hc0 g hg hgpar
    rw [swapL_length] at hg
    have hgi : g ≠ i := by omega
    have hgc : g ≠ smallerChild h i := by omega
    rw [parc, giw, gi_swapL_other hgi hgc]
    have := hinv.1 g hg (by omega) (by omega)
    rwa [hgpar] at this

theorem heapifyDownLoop_inv :
    ∀ (fuel : Nat) (h : List Item) (i : Nat), h.length ≤ fuel + i →
      downInv h i → ∀ r, heapifyDownLoop fuel h i = some r → heapInv r := by
  intro fuel
  induction fuel with
  | zero =>
    intro h i _ _ r hr
    exact absurd hr (by rw [heapifyDownLoop]; exact Option.noConfusion)
  | succ n ih =>
    intro h i hlen hinv r hr
    rw [heapifyDownLoop] at hr
    split at hr
    · next hl =>
      split at hr
      · next hlt =>
        obtain rfl : h = r := Option.some.inj hr
        intro j hj hj0
        by_cases hjpi : (j - 1) / 2 = i
        · have hj12 : j = 2 * i + 1 ∨ j = 2 * i + 2 := by omega
          rcases hj12 with hj1 | hj2
          · rw [hjpi, hj1]
            exact le_trans (le_of_lt hlt) (smallerChild_le_left h i)
          · rw [hjpi, hj2]
            exact le_trans (le_of_lt hlt)
              (smallerChild_le_right h i (by omega))
        · exact hinv.1 j hj hj0 hjpi
      · next hlt =>
        have hc1 := smallerChild_gt h i
        have hc2 := smallerChild_lt_length h i hl
        exact ih (swapL h i (smallerChild h i)) (smallerChild h i)
          (by rw [swapL_length]; omega)
          (downInv_swap h i hl (not_lt.mp hlt) hinv) r hr
    · next hl =>
      obtain rfl : h = r := Option.some.inj hr
      intro j hj hj0
      by_cases hjpi : (j - 1) / 2 = i
      · exfalso; omega
      · exact hinv.1 j hj hj0 hjpi

theorem heapifyDown_inv (h : List Item) (i : Nat) (hinv : downInv h i) :
    heapInv (heapifyDown h i) := by
  rw [heapifyDown]
  have hs := heapifyDownLoop_isSome (h.length + 1) h i (by omega) (by omega)
  obtain ⟨r, hr⟩ := Option.isSome_iff_exists.mp hs
  rw [hr]
  exact heapifyDownLoop_inv (h.length + 1) h i (by omega) hinv r hr

theorem gi_set_dropLast {h : List Item} {v : Item} {k : Nat} (hk0 : k ≠ 0)
    (hk : k < h.length - 1) : gi ((h.set 0 v).dropLast) k = gi h k := by
  rw [gi_eq_getElem?, gi_eq_getElem?, List.getElem?_dropLast,
    List.length_set, if_pos hk, List.getElem?_set_ne (Ne.symm hk0)]

theorem extractMin_inv (h : List Item) (hinv : heapInv h) :
    heapInv (extractMin h).2 := by
  rw [extractMin]
  split
  · exact hinv
  · next hne =>
    have hlen0 : h.length ≠ 0 := by simpa using hne
    show heapInv
      (if ((h.set 0 (gi h (h.length - 1))).dropLast).length == 0 then
         (h.set 0 (gi h (h.length - 1))).dropLast
       else heapifyDown ((h.set 0 (gi h (h.length - 1))).dropLast) 0)
    have h1len : ((h.set 0 (gi h (h.length - 1))).dropLast).length =
        h.length - 1 := by simp
    split
    · next h10 =>
      intro j hj hj0
      rw [h1len] at hj
      exfalso
      simp only [beq_iff_eq] at h10
      omega
    · apply heapifyDown_inv
      constructor
      · intro j hj hj0 hjp
        rw [h1len] at hj
        rw [gi_set_dropLast hj0 hj, gi_set_dropLast hjp (by omega)]
        exact hinv j (by omega) hj0
      · intro h00
        exact absurd rfl h00

theorem heapInv_root_le (h : List Item) (hinv : heapInv h) :
    ∀ j, j < h.length → (gi h 0).1 ≤ (gi h j).1 := by
  intro j
  induction j using Nat.strong_induction_on with
  | _ j ih =>
    intro hj
    by_cases hj0 : j = 0
    · rw [hj0]
    · exact le_trans (ih ((j - 1) / 2) (by omega) (by omega))
        (hinv j hj hj0)

theorem runHeap_inv (ops : List HeapOp) : heapInv (runHeap ops) := by
  rw [runHeap]
  have main : ∀ (l : List HeapOp) (h : List Item), heapInv h →
      heapInv (l.foldl heapStep h) := by
    intro l
    induction l with
    | nil => intro h hh; exact hh
    | cons op rest ih =>
      intro h hh
      apply ih
      cases op with
      | ins x => exact heapInsert_inv h x hh
      | ext => exact extractMin_inv h hh
  exact main ops [] (by intro j hj _; simp at hj)

/-- C5: after any interleaving of `insert` and `extract_min` calls against
an initially empty `MinHeap`, the backing array always satisfies
`heap[(j-1)//2][0] ≤ heap[j][0]` for every existing parent/child pair, and
whenever `extract_min` on the current (non-empty) heap returns an element,
that element is in the heap and its score is the minimum of all scores
currently in the heap.  Every point of an interleaving is `runHeap` of the
prefix of calls up to it, so quantifying over all call lists covers every
point. -/
theorem C5_heap_validity (ops : List HeapOp) :
    heapInv (runHeap ops) ∧
    ∀ m h', extractMin (runHeap ops) = (some m, h') →
      m ∈ runHeap ops ∧ ∀ x ∈ runHeap ops, m.1 ≤ x.1 := by
  have hinv : heapInv (runHeap ops) := runHeap_inv ops
  refine ⟨hinv, ?_⟩
  intro m h' hm
  rw [extractMin] at hm
  by_cases h0 : (runHeap ops).length = 0
  · rw [if_pos (by simpa using h0)] at hm
    exact absurd (congrArg Prod.fst hm) (by simp)
  · rw [if_neg (by simpa using h0)] at hm
    have hm0 : m = gi (runHeap ops) 0 :=
      (Option.some.inj (congrArg Prod.fst hm)).symm
    have h0lt : 0 < (runHeap ops).length := Nat.pos_of_ne_zero h0
    constructor
    · have hg : gi (runHeap ops) 0 = (runHeap ops)[0] :=
        gi_of_getElem? (List.getElem?_eq_getElem h0lt)
      rw [hm0, hg]
      exact List.getElem_mem h0lt
    · intro x hx
      obtain ⟨j, hj, hxj⟩ := List.mem_iff_getElem.mp hx
      have hg : gi (runHeap ops) j = x := by
        rw [gi_of_getElem? (List.getElem?_eq_getElem hj), hxj]
      rw [hm0, ← hg]
      exact heapInv_root_le (runHeap ops) hinv j hj

/-- C5 witness: the interleaving insert (5,0), (2,1), (8,2), (1,3), then
one `extract_min` (which removes (1,3)); on the resulting heap the theorem
yields the heap property and that a further `extract_min` returns (2,1),
the minimum. -/
theorem C5_witness :
    heapInv (runHeap [HeapOp.ins (5, 0), HeapOp.ins (2, 1), HeapOp.ins (8, 2),
      HeapOp.ins (1, 3), HeapOp.ext]) ∧
    (((2 : Int), 1) ∈ runHeap [HeapOp.ins (5, 0), HeapOp.ins (2, 1),
      HeapOp.ins (8, 2), HeapOp.ins (1, 3), HeapOp.ext] ∧
     ∀ x ∈ runHeap [HeapOp.ins (5, 0), HeapOp.ins (2, 1), HeapOp.ins (8, 2),
      HeapOp.ins (1, 3), HeapOp.ext], ((2 : Int), 1).1 ≤ x.1) :=
  ⟨(C5_heap_validity _).1,
    (C5_heap_validity [HeapOp.ins (5, 0), HeapOp.ins (2, 1),
      HeapOp.ins (8, 2), HeapOp.ins (1, 3), HeapOp.ext]).2
      (2, 1) [(5, 0), (8, 2)] (by decide)⟩

/-! ### Claims C1 and C3 — FIFO admission

`processPendingReqs_eq` factors one drain into its effect on the
participant rows and a list of by-id outcome writes; the per-row lemmas on
`markFun` then yield the positional statements. -/

theorem applyMarks_eq_map (ms : List (Nat × Bool)) :
    ∀ reqs : List Request, applyMarks reqs ms = reqs.map (markFun ms) := by
  induction ms with
  | nil =>
    intro reqs
    show reqs = reqs.map (markFun [])
    rw [show markFun [] = id from rfl, List.map_id]
  | cons m tail ih =>
    intro reqs
    show applyMarks (markReq reqs m.1 true m.2) tail = _
    rw [ih, markReq, List.map_map]
    rfl

theorem markFun_not_mem :
    ∀ (ms : List (Nat × Bool)) (r : Request),
      r.id ∉ ms.map Prod.fst → markFun ms r = r := by
  intro ms
  induction ms with
  | nil => intro r _; rfl
  | cons m tail ih =>
    intro r hr
    rw [List.map_cons, List.mem_cons, not_or] at hr
    show markFun tail (if r.id = m.1 then _ else r) = r
    rw [if_neg hr.1]
    exact ih r hr.2

theorem markFun_mem :
    ∀ (ms : List (Nat × Bool)) (r : Request) (b : Bool),
      (ms.map Prod.fst).Nodup → (r.id, b) ∈ ms →
      markFun ms r = { r with processed := true, success := b } := by
  intro ms
  induction ms with
  | nil => intro r b _ hmem; exact absurd hmem (List.not_mem_nil _)
  | cons m tail ih =>
    intro r b hnd hmem
    rw [List.map_cons, List.nodup_cons] at hnd
    rcases List.mem_cons.mp hmem with heq | htail
    · show markFun tail (if r.id = m.1 then _ else r) = _
      rw [if_pos (by rw [← heq])]
      have hb : m.2 = b := by rw [← heq]
      rw [hb]
      apply markFun_not_mem
      show ({ r with processed := true, success := b } : Request).id ∉ _
      have hid : ({ r with processed := true, success := b } : Request).id =
          r.id := rfl
      have hfst : r.id = m.1 := by rw [← heq]
      rw [hid, hfst]
      exact hnd.1
    · have hne : r.id ≠ m.1 := by
        intro he
        exact hnd.1 (he ▸ List.mem_map_of_mem Prod.fst htail)
      show markFun tail (if r.id = m.1 then _ else r) = _
      rw [if_neg hne]
      exact ih r b hnd.2 htail

theorem processPendingReqs_eq :
    ∀ (pend : List Request) (s : AdmState),
      (s.parts ++ pend.map (·.user)).Nodup →
      processPendingReqs s pend =
        (⟨s.cap,
          s.parts ++ ((pend.take (s.cap - s.parts.length)).map (·.user)),
          applyMarks s.reqs (marksOf pend (s.cap - s.parts.length))⟩,
          false) := by
  intro pend
  induction pend with
  | nil =>
    intro s _
    show (s, false) = _
    cases s with
    | mk cap parts reqs => simp [marksOf, applyMarks]
  | cons r rest ih =>
    intro s hnd
    rw [List.map_cons] at hnd
    rw [processPendingReqs]
    split
    · next hlt =>
      have hnotmem : r.user ∉ s.parts := by
        intro hmem
        exact (List.disjoint_of_nodup_append hnd) hmem
          (List.mem_cons_self _ _)
      have hnd2 : ((s.parts ++ [r.user]) ++ rest.map (·.user)).Nodup := by
        rw [List.append_assoc, List.singleton_append]
        exact hnd
      rw [if_neg hnotmem,
        ih ⟨s.cap, s.parts ++ [r.user], markReq s.reqs r.id true true⟩ hnd2]
      obtain ⟨k, hk⟩ : ∃ k, s.cap - s.parts.length = k + 1 :=
        ⟨s.cap - s.parts.length - 1, by omega⟩
      have hk' : s.cap - (s.parts ++ [r.user]).length = k := by
        simp only [List.length_append, List.length_cons,
          List.length_nil]
        omega
      rw [hk]
      show (AdmState.mk _ _ _, false) = _
      rw [Prod.mk.injEq]
      refine ⟨?_, rfl⟩
      rw [AdmState.mk.injEq]
      refine ⟨rfl, ?_, ?_⟩
      · rw [hk', List.take_succ_cons, List.map_cons, List.append_assoc]
        rfl
      · rw [hk']
        show applyMarks (markReq s.reqs r.id true true) (marksOf rest k) = _
        rw [marksOf]
        rfl
    · next hge =>
      have h0 : s.cap - s.parts.length = 0 := by omega
      rw [h0]
      show (AdmState.mk s.cap s.parts (markReq s.reqs r.id true false),
        false) = _
      rw [Prod.mk.injEq]
      refine ⟨?_, rfl⟩
      rw [AdmState.mk.injEq]
      refine ⟨rfl, by simp, ?_⟩
      rw [marksOf]
      rfl

theorem marksOf_eq :
    ∀ (pend : List Request) (f : Nat),
      marksOf pend f =
        (pend.take f).map (fun r => (r.id, true)) ++
          ((pend.drop f).take 1).map (fun r => (r.id, false)) := by
  intro pend
  induction pend with
  | nil => intro f; simp [marksOf]
  | cons r rest ih =>
    intro f
    cases f with
    | zero => simp [marksOf]
    | succ k =>
      rw [marksOf, List.take_succ_cons, List.map_cons, List.drop_succ_cons,
        List.cons_append, ih]

/-- C1 counterexample: capacity 2, three pending requests with strictly
increasing timestamps, distinct primary keys and no initial participants —
every hypothesis of the original claim — but requests 1 and 2 come from
the same user 10.  The pass admits request 1, then the second
`SessionParticipant.objects.create` for user 10 violates `unique_together
(session, user)` and raises `IntegrityError`, aborting the pass: request 2
(within the first C) is left unmarked (`processed=false`, no participant
created), contradicting the claim that the first C requests are all
admitted and marked. -/
theorem C1_counterexample :
    (processJoinQueuePass ⟨2, [],
        [⟨1, 10, 1, false, false⟩, ⟨2, 10, 2, false, false⟩,
         ⟨3, 30, 3, false, false⟩]⟩).2 = true ∧
    (processJoinQueuePass ⟨2, [],
        [⟨1, 10, 1, false, false⟩, ⟨2, 10, 2, false, false⟩,
         ⟨3, 30, 3, false, false⟩]⟩).1.reqs[1]? =
      some ⟨2, 10, 2, false, false⟩ := by
  refine ⟨by decide, by decide⟩

/-- C1 amended: a single `process_join_queue` pass over a session with
capacity C, no participants, and n pending requests with PAIRWISE DISTINCT
requesters (ids distinct, arrival timestamps strictly increasing, C ≤ n)
raises no `IntegrityError`, creates participants for exactly the users of
the first C requests in arrival order, writes `processed=true,
success=true` on each of those requests, writes `processed=true,
success=false` on the (C+1)-th request when it exists, and leaves every
later request row untouched (`processed=false`).  Without the
distinct-requesters hypothesis the `unique_together (session, user)`
constraint can abort the pass mid-drain (see the counterexample). -/
theorem C1_single_pass_admission (cap : Nat) (reqs : List Request)
    (hproc : ∀ r ∈ reqs, r.processed = false)
    (hts : reqs.Pairwise (fun a b => a.ts < b.ts))
    (hids : (reqs.map (·.id)).Nodup)
    (husers : (reqs.map (·.user)).Nodup)
    (hcap : cap ≤ reqs.length) :
    (processJoinQueuePass ⟨cap, [], reqs⟩).2 = false ∧
    (processJoinQueue ⟨cap, [], reqs⟩).parts =
      (reqs.take cap).map (·.user) ∧
    ∀ i r, reqs[i]? = some r →
      (i < cap → (processJoinQueue ⟨cap, [], reqs⟩).reqs[i]? =
          some { r with processed := true, success := true }) ∧
      (i = cap → (processJoinQueue ⟨cap, [], reqs⟩).reqs[i]? =
          some { r with processed := true, success := false }) ∧
      (cap < i → (processJoinQueue ⟨cap, [], reqs⟩).reqs[i]? = some r) := by
  have hpend : pendingReqsOf reqs = reqs := by
    rw [pendingReqsOf]
    have hfilter : reqs.filter (fun r => !r.processed) = reqs :=
      List.filter_eq_self.mpr (by intro r hr; rw [hproc r hr]; rfl)
    rw [hfilter]
    exact List.Sorted.insertionSort_eq (hts.imp fun hab => le_of_lt hab)
  have heqp : processJoinQueuePass ⟨cap, [], reqs⟩ =
      (⟨cap, (reqs.take cap).map (·.user),
        applyMarks reqs (marksOf reqs cap)⟩, false) := by
    rw [processJoinQueuePass]
    show processPendingReqs ⟨cap, [], reqs⟩ (pendingReqsOf reqs) = _
    rw [hpend, processPendingReqs_eq reqs ⟨cap, [], reqs⟩
      (by simpa using husers)]
    rfl
  have heq : processJoinQueue ⟨cap, [], reqs⟩ =
      ⟨cap, (reqs.take cap).map (·.user),
        applyMarks reqs (marksOf reqs cap)⟩ := by
    rw [processJoinQueue, heqp]
  constructor
  · rw [heqp]
  rw [heq]
  have hmsfst : (marksOf reqs cap).map Prod.fst =
      (reqs.take (cap + 1)).map (·.id) := by
    rw [marksOf_eq, List.map_append, List.map_map, List.map_map,
      List.take_add, List.map_append]
    rfl
  have hmsnd : ((marksOf reqs cap).map Prod.fst).Nodup := by
    rw [hmsfst]
    exact hids.sublist ((List.take_sublist _ _).map _)
  refine ⟨rfl, ?_⟩
  intro i r hr
  have hilen : i < reqs.length := by
    by_contra hge
    rw [List.getElem?_eq_none (by omega)] at hr
    exact Option.noConfusion hr
  have hri : reqs[i] = r := by
    rw [List.getElem?_eq_getElem hilen] at hr
    exact Option.some.inj hr
  have hmap : (applyMarks reqs (marksOf reqs cap))[i]? =
      some (markFun (marksOf reqs cap) r) := by
    rw [applyMarks_eq_map, List.getElem?_map, hr]
    rfl
  refine ⟨?_, ?_, ?_⟩
  · intro hic
    have hmem : (r.id, true) ∈ marksOf reqs cap := by
      rw [marksOf_eq]
      apply List.mem_append_left
      apply List.mem_map_of_mem
      have : (reqs.take cap)[i]? = some r := by
        rw [List.getElem?_take_of_lt hic, hr]
      exact List.getElem?_mem this
    rw [hmap, markFun_mem (marksOf reqs cap) r true hmsnd hmem]
  · intro hic
    have hdrop : (reqs.drop cap)[0]? = some r := by
      rw [List.getElem?_drop, Nat.add_zero, ← hic, hr]
    have hmem : (r.id, false) ∈ marksOf reqs cap := by
      rw [marksOf_eq]
      apply List.mem_append_right
      apply List.mem_map_of_mem
      have htake : ((reqs.drop cap).take 1)[0]? = some r := by
        rw [List.getElem?_take, if_pos (by omega)]
        exact hdrop
      exact List.getElem?_mem htake
    rw [hmap, markFun_mem (marksOf reqs cap) r false hmsnd hmem]
  · intro hic
    have hnot : r.id ∉ (marksOf reqs cap).map Prod.fst := by
      rw [hmsfst]
      intro hmem
      obtain ⟨j, hj, hjr⟩ := List.mem_iff_getElem.mp hmem
      have hjlen : j < reqs.length := by
        have := hj
        simp only [List.length_map, List.length_take] at this
        omega
      have hjc : j < cap + 1 := by
        have := hj
        simp only [List.length_map, List.length_take] at this
        omega
      have hjid : reqs[j].id = r.id := by
        rw [← hjr]
        rw [List.getElem_map]
        congr 1
        rw [List.getElem_take]
      have hjm : j < (reqs.map (·.id)).length := by
        rw [List.length_map]; omega
      have him : i < (reqs.map (·.id)).length := by
        rw [List.length_map]; omega
      have hinj : (reqs.map (·.id))[j] = (reqs.map (·.id))[i] := by
        rw [List.getElem_map, List.getElem_map, hjid, hri]
      have := (List.Nodup.getElem_inj_iff hids).mp hinj
      omega
    rw [markFun_not_mem (marksOf reqs cap) r hnot] at hmap
    exact hmap

/-- C1 witness: capacity 2, four pending requests (ids 1..4, distinct
users 10..40, timestamps 1..4): the pass raises nothing, admits users 10
and 20, marks request 3 as processed-unsuccessful, and leaves request 4
untouched. -/
theorem C1_witness :
    (processJoinQueuePass ⟨2, [],
        [⟨1, 10, 1, false, false⟩, ⟨2, 20, 2, false, false⟩,
         ⟨3, 30, 3, false, false⟩, ⟨4, 40, 4, false, false⟩]⟩).2 =
      false ∧
    (processJoinQueue ⟨2, [],
        [⟨1, 10, 1, false, false⟩, ⟨2, 20, 2, false, false⟩,
         ⟨3, 30, 3, false, false⟩, ⟨4, 40, 4, false, false⟩]⟩).parts =
      [10, 20] ∧
    (processJoinQueue ⟨2, [],
        [⟨1, 10, 1, false, false⟩, ⟨2, 20, 2, false, false⟩,
         ⟨3, 30, 3, false, false⟩, ⟨4, 40, 4, false, false⟩]⟩).reqs[0]? =
      some ⟨1, 10, 1, true, true⟩ ∧
    (processJoinQueue ⟨2, [],
        [⟨1, 10, 1, false, false⟩, ⟨2, 20, 2, false, false⟩,
         ⟨3, 30, 3, false, false⟩, ⟨4, 40, 4, false, false⟩]⟩).reqs[2]? =
      some ⟨3, 30, 3, true, false⟩ ∧
    (processJoinQueue ⟨2, [],
        [⟨1, 10, 1, false, false⟩, ⟨2, 20, 2, false, false⟩,
         ⟨3, 30, 3, false, false⟩, ⟨4, 40, 4, false, false⟩]⟩).reqs[3]? =
      some ⟨4, 40, 4, false, false⟩ := by
  have h := C1_single_pass_admission 2
    [⟨1, 10, 1, false, false⟩, ⟨2, 20, 2, false, false⟩,
     ⟨3, 30, 3, false, false⟩, ⟨4, 40, 4, false, false⟩]
    (by decide) (by decide) (by decide) (by decide) (by decide)
  exact ⟨h.1, h.2.1,
    (h.2.2 0 ⟨1, 10, 1, false, false⟩ rfl).1 (by omega),
    (h.2.2 2 ⟨3, 30, 3, false, false⟩ rfl).2.1 rfl,
    (h.2.2 3 ⟨4, 40, 4, false, false⟩ rfl).2.2 (by omega)⟩

theorem processPendingReqs_cap :
    ∀ (pend : List Request) (s : AdmState),
      (processPendingReqs s pend).1.cap = s.cap := by
  intro pend
  induction pend with
  | nil => intro s; rfl
  | cons r rest ih =>
    intro s
    rw [processPendingReqs]
    split
    · split
      · rfl
      · exact ih _
    · rfl

theorem processPendingReqs_parts_le :
    ∀ (pend : List Request) (s : AdmState),
      s.parts.length ≤ s.cap →
      (processPendingReqs s pend).1.parts.length ≤ s.cap := by
  intro pend
  induction pend with
  | nil => intro s h; exact h
  | cons r rest ih =>
    intro s h
    rw [processPendingReqs]
    split
    · next hlt =>
      split
      · exact h
      · exact ih ⟨s.cap, s.parts ++ [r.user], markReq s.reqs r.id true true⟩
          (by simp only [List.length_append, List.length_cons,
            List.length_nil]; omega)
    · exact h

theorem processJoinQueue_cap (s : AdmState) :
    (processJoinQueue s).cap = s.cap :=
  processPendingReqs_cap (pendingReqsOf s.reqs) s

theorem processJoinQueue_parts_le (s : AdmState)
    (h : s.parts.length ≤ s.cap) :
    (processJoinQueue s).parts.length ≤ s.cap :=
  processPendingReqs_parts_le (pendingReqsOf s.reqs) s h

/-- C3: for any per-session state whose participant count is at most the
capacity, after any sequence of admission passes (with new join-request
rows possibly created between passes) the participant count still does not
exceed the capacity, which itself never changes. -/
theorem C3_capacity_never_exceeded (s : AdmState) (ops : List AdmOp)
    (hinit : s.parts.length ≤ s.cap) :
    (runAdm s ops).cap = s.cap ∧ (runAdm s ops).parts.length ≤ s.cap := by
  rw [runAdm]
  induction ops generalizing s with
  | nil => exact ⟨rfl, hinit⟩
  | cons op rest ih =>
    show ((op :: rest).foldl admStep s).cap = s.cap ∧ _
    rw [List.foldl_cons]
    cases op with
    | pass =>
      have hstep : (admStep s AdmOp.pass).cap = s.cap :=
        processJoinQueue_cap s
      have hle : (admStep s AdmOp.pass).parts.length ≤ s.cap :=
        processJoinQueue_parts_le s hinit
      have := ih (admStep s AdmOp.pass) (by rw [hstep]; exact hle)
      rw [hstep] at this
      exact this
    | newReq r =>
      exact ih { s with reqs := s.reqs ++ [r] } hinit

/-- C3 witness: capacity 1, two requests arriving around two passes; the
participant count stays at most 1. -/
theorem C3_witness :
    (runAdm ⟨1, [], []⟩
      [AdmOp.newReq ⟨1, 10, 1, false, false⟩, AdmOp.pass,
       AdmOp.newReq ⟨2, 20, 2, false, false⟩, AdmOp.pass]).cap = 1 ∧
    (runAdm ⟨1, [], []⟩
      [AdmOp.newReq ⟨1, 10, 1, false, false⟩, AdmOp.pass,
       AdmOp.newReq ⟨2, 20, 2, false, false⟩, AdmOp.pass]).parts.length ≤
      1 :=
  C3_capacity_never_exceeded ⟨1, [], []⟩
    [AdmOp.newReq ⟨1, 10, 1, false, false⟩, AdmOp.pass,
     AdmOp.newReq ⟨2, 20, 2, false, false⟩, AdmOp.pass] (by decide)

/-! ### Claims C8, C2 and C4 — priority scheduling

`processBookingsLoop_eq` factors one scheduling pass into a list of by-id
status writes, and `bmarksOf_confirmed_iff` characterises which write each
pending booking receives: `confirmed` exactly when no earlier booking of
the pass order requested the same slot (the pass starts from an empty
`confirmed_times`). -/

theorem applyBMarks_eq_map (ms : List (Nat × BStatus)) (now : Nat) :
    ∀ store : List Booking,
      applyBMarks store ms now = store.map (bMarkFun ms now) := by
  induction ms with
  | nil =>
    intro store
    show store = store.map (bMarkFun [] now)
    rw [show bMarkFun [] now = id from rfl, List.map_id]
  | cons m tail ih =>
    intro store
    show applyBMarks (setStatus store m.1 m.2 now) tail now = _
    rw [ih, setStatus, List.map_map]
    rfl

theorem bMarkFun_id (ms : List (Nat × BStatus)) (now : Nat) :
    ∀ b : Booking, (bMarkFun ms now b).id = b.id := by
  induction ms with
  | nil => intro b; rfl
  | cons m tail ih =>
    intro b
    show (bMarkFun tail now (if b.id = m.1 then _ else b)).id = b.id
    rw [ih]
    split <;> rfl

theorem bMarkFun_not_mem :
    ∀ (ms : List (Nat × BStatus)) (now : Nat) (b : Booking),
      b.id ∉ ms.map Prod.fst → bMarkFun ms now b = b := by
  intro ms
  induction ms with
  | nil => intro now b _; rfl
  | cons m tail ih =>
    intro now b hb
    rw [List.map_cons, List.mem_cons, not_or] at hb
    show bMarkFun tail now (if b.id = m.1 then _ else b) = b
    rw [if_neg hb.1]
    exact ih now b hb.2

theorem bMarkFun_mem :
    ∀ (ms : List (Nat × BStatus)) (now : Nat) (b : Booking) (st : BStatus),
      (ms.map Prod.fst).Nodup → (b.id, st) ∈ ms →
      bMarkFun ms now b = { b with status := st, processedAt := some now } := by
  intro ms
  induction ms with
  | nil => intro now b st _ hmem; exact absurd hmem (List.not_mem_nil _)
  | cons m tail ih =>
    intro now b st hnd hmem
    rw [List.map_cons, List.nodup_cons] at hnd
    rcases List.mem_cons.mp hmem with heq | htail
    · show bMarkFun tail now (if b.id = m.1 then _ else b) = _
      rw [if_pos (by rw [← heq])]
      have hst : m.2 = st := by rw [← heq]
      rw [hst]
      apply bMarkFun_not_mem
      have hid : ({ b with status := st, processedAt := some now } :
          Booking).id = b.id := rfl
      have hfst : b.id = m.1 := by rw [← heq]
      rw [hid, hfst]
      exact hnd.1
    · have hne : b.id ≠ m.1 := by
        intro he
        exact hnd.1 (he ▸ List.mem_map_of_mem Prod.fst htail)
      show bMarkFun tail now (if b.id = m.1 then _ else b) = _
      rw [if_neg hne]
      exact ih now b st hnd.2 htail

theorem processBookingsLoop_eq :
    ∀ (pend store : List Booking) (now : Nat) (conf : List (Nat × Nat))
      (cnt : Nat),
      processBookingsLoop store now pend conf cnt =
        (applyBMarks store (bmarksOf pend conf) now, cnt + pend.length) := by
  intro pend
  induction pend with
  | nil => intro store now conf cnt; rfl
  | cons b rest ih =>
    intro store now conf cnt
    rw [processBookingsLoop, bmarksOf]
    split
    · rw [ih]
      show (_, cnt + 1 + rest.length) = (_, cnt + (rest.length + 1))
      rw [Nat.add_assoc, Nat.add_comm 1 rest.length]
      rfl
    · rw [ih]
      show (_, cnt + 1 + rest.length) = (_, cnt + (rest.length + 1))
      rw [Nat.add_assoc, Nat.add_comm 1 rest.length]
      rfl

theorem bmarksOf_map_fst :
    ∀ (pend : List Booking) (conf : List (Nat × Nat)),
      (bmarksOf pend conf).map Prod.fst = pend.map (·.id) := by
  intro pend
  induction pend with
  | nil => intro conf; rfl
  | cons b rest ih =>
    intro conf
    rw [bmarksOf]
    split
    · rw [List.map_cons, ih]
      rfl
    · rw [List.map_cons, ih]
      rfl

theorem slotMem_append (conf : List (Nat × Nat)) (p : Nat × Nat)
    (d t : Nat) :
    slotMem (conf ++ [p]) d t =
      (slotMem conf d t || (d == p.1 && t == p.2)) := by
  simp [slotMem, List.any_append]

theorem bmarksOf_confirmed_iff :
    ∀ (pend : List Booking) (conf : List (Nat × Nat)) (i : Nat),
      i < pend.length →
      ((bmarksOf pend conf)[i]? =
          some ((pend.getD i default).id, BStatus.confirmed) ↔
        (slotMem conf (pend.getD i default).date
            (pend.getD i default).time = false ∧
         ∀ j, j < i →
           ¬((pend.getD j default).date = (pend.getD i default).date ∧
             (pend.getD j default).time = (pend.getD i default).time))) := by
  intro pend
  induction pend with
  | nil => intro conf i hi; exact absurd hi (by simp)
  | cons x rest ih =>
    intro conf i hi
    cases i with
    | zero =>
      by_cases hc : slotMem conf x.date x.time
      · rw [bmarksOf, if_pos hc]
        simp [hc]
      · rw [bmarksOf, if_neg hc]
        simp [Bool.of_not_eq_true hc]
    | succ n =>
      have hn : n < rest.length := by
        rw [List.length_cons] at hi
        omega
      by_cases hc : slotMem conf x.date x.time
      · rw [bmarksOf, if_pos hc, List.getElem?_cons_succ, List.getD_cons_succ,
          ih conf n hn]
        constructor
        · intro ⟨hsm, hall⟩
          refine ⟨hsm, ?_⟩
          intro j hj
          cases j with
          | zero =>
            rw [List.getD_cons_zero]
            intro ⟨hd, ht⟩
            rw [← hd, ← ht, hc] at hsm
            exact Bool.noConfusion hsm
          | succ k =>
            rw [List.getD_cons_succ]
            exact hall k (by omega)
        · intro ⟨hsm, hall⟩
          refine ⟨hsm, ?_⟩
          intro j hj
          have := hall (j + 1) (by omega)
          rwa [List.getD_cons_succ] at this
      · rw [bmarksOf, if_neg hc, List.getElem?_cons_succ, List.getD_cons_succ,
          ih (conf ++ [(x.date, x.time)]) n hn]
        rw [slotMem_append]
        constructor
        · intro ⟨hsm, hall⟩
          rw [Bool.or_eq_false_iff] at hsm
          refine ⟨hsm.1, ?_⟩
          intro j hj
          cases j with
          | zero =>
            rw [List.getD_cons_zero]
            intro ⟨hd, ht⟩
            have := hsm.2
            rw [← hd, ← ht] at this
            simp at this
          | succ k =>
            rw [List.getD_cons_succ]
            exact hall k (by omega)
        · intro ⟨hsm, hall⟩
          have h0 := hall 0 (by omega)
          rw [List.getD_cons_zero] at h0
          constructor
          · rw [Bool.or_eq_false_iff]
            refine ⟨hsm, ?_⟩
            rw [Bool.and_eq_false_iff]
            by_cases hd : (rest.getD n default).date = x.date
            · right
              have ht : ¬ (rest.getD n default).time = x.time := by
                intro ht
                exact h0 ⟨hd.symm, ht.symm⟩
              simpa using ht
            · left
              simpa using hd
          · intro j hj
            have := hall (j + 1) (by omega)
            rwa [List.getD_cons_succ] at this

theorem bmarksOf_status_exists :
    ∀ (pend : List Booking) (conf : List (Nat × Nat)) (i : Nat),
      i < pend.length →
      ∃ st, (bmarksOf pend conf)[i]? =
          some ((pend.getD i default).id, st) ∧
        (st = BStatus.confirmed ∨ st = BStatus.rejected) := by
  intro pend
  induction pend with
  | nil => intro conf i hi; exact absurd hi (by simp)
  | cons x rest ih =>
    intro conf i hi
    cases i with
    | zero =>
      by_cases hc : slotMem conf x.date x.time
      · exact ⟨BStatus.rejected, by rw [bmarksOf, if_pos hc]; simp,
          Or.inr rfl⟩
      · exact ⟨BStatus.confirmed, by rw [bmarksOf, if_neg hc]; simp,
          Or.inl rfl⟩
    | succ n =>
      have hn : n < rest.length := by
        rw [List.length_cons] at hi
        omega
      by_cases hc : slotMem conf x.date x.time
      · obtain ⟨st, h1, h2⟩ := ih conf n hn
        exact ⟨st, by rw [bmarksOf, if_pos hc, List.getElem?_cons_succ,
          List.getD_cons_succ]; exact h1, h2⟩
      · obtain ⟨st, h1, h2⟩ := ih (conf ++ [(x.date, x.time)]) n hn
        exact ⟨st, by rw [bmarksOf, if_neg hc, List.getElem?_cons_succ,
          List.getD_cons_succ]; exact h1, h2⟩

theorem lookupId_of_nodup :
    ∀ store : List Booking, (store.map (·.id)).Nodup →
      ∀ b ∈ store, lookupId store b.id = some b := by
  intro store
  induction store with
  | nil => intro _ b hb; exact absurd hb (List.not_mem_nil b)
  | cons x rest ih =>
    intro hnd b hb
    rw [List.map_cons, List.nodup_cons] at hnd
    rcases List.mem_cons.mp hb with rfl | hbr
    · rw [lookupId]
      exact List.find?_cons_of_pos rest (by simp)
    · have hne : x.id ≠ b.id := by
        intro he
        exact hnd.1 (he ▸ List.mem_map_of_mem (·.id) hbr)
      rw [lookupId, List.find?_cons_of_neg rest (by simpa using hne)]
      exact ih hnd.2 b hbr

theorem lookupId_map_bMarkFun (store : List Booking)
    (ms : List (Nat × BStatus)) (now bid : Nat) :
    lookupId (store.map (bMarkFun ms now)) bid =
      (lookupId store bid).map (bMarkFun ms now) := by
  rw [lookupId, lookupId, List.find?_map]
  have hfn : ((fun b => b.id == bid) ∘ bMarkFun ms now) =
      (fun b : Booking => b.id == bid) := by
    funext b
    show ((bMarkFun ms now b).id == bid) = (b.id == bid)
    rw [bMarkFun_id]
  rw [hfn]

/-- Specification of one `process_booking_queue` pass (given distinct
primary keys): the returned count is the number of pending bookings of the
trainer; the i-th booking of the pass order ends `confirmed` when no
earlier booking of the pass order requested its `(date, time)` slot and
`rejected` otherwise, with `processed_at` set; rows of other trainers or
in non-pending states are untouched. -/
theorem processBookingQueue_spec (store : List Booking) (tid now : Nat)
    (hids : (store.map (·.id)).Nodup) :
    (processBookingQueue store tid now).2 =
      (store.filter fun b =>
        b.trainer == tid && b.status == BStatus.pending).length ∧
    (∀ i, i < (pendingBookingsFor store tid).length →
      ((∀ j, j < i →
          ¬(((pendingBookingsFor store tid).getD j default).date =
              ((pendingBookingsFor store tid).getD i default).date ∧
            ((pendingBookingsFor store tid).getD j default).time =
              ((pendingBookingsFor store tid).getD i default).time)) →
        lookupId (processBookingQueue store tid now).1
            ((pendingBookingsFor store tid).getD i default).id =
          some { (pendingBookingsFor store tid).getD i default with
            status := BStatus.confirmed, processedAt := some now }) ∧
      ((¬ ∀ j, j < i →
          ¬(((pendingBookingsFor store tid).getD j default).date =
              ((pendingBookingsFor store tid).getD i default).date ∧
            ((pendingBookingsFor store tid).getD j default).time =
              ((pendingBookingsFor store tid).getD i default).time)) →
        lookupId (processBookingQueue store tid now).1
            ((pendingBookingsFor store tid).getD i default).id =
          some { (pendingBookingsFor store tid).getD i default with
            status := BStatus.rejected, processedAt := some now })) ∧
    (∀ (k : Nat) (b : Booking), store[k]? = some b →
      ¬(b.trainer = tid ∧ b.status = BStatus.pending) →
      (processBookingQueue store tid now).1[k]? = some b) := by
  have hperm : (pendingBookingsFor store tid).Perm
      (store.filter fun b =>
        b.trainer == tid && b.status == BStatus.pending) := by
    rw [pendingBookingsFor]
    exact List.perm_insertionSort _ _
  have hfid : ((store.filter fun b =>
      b.trainer == tid && b.status == BStatus.pending).map (·.id)).Nodup :=
    hids.sublist ((List.filter_sublist store).map _)
  have hpid : ((pendingBookingsFor store tid).map (·.id)).Nodup :=
    ((hperm.map (·.id)).symm).nodup hfid
  by_cases hzero : (pendingBookingsFor store tid).length = 0
  · have hq : processBookingQueue store tid now = (store, 0) := by
      simp only [processBookingQueue]
      rw [if_pos hzero]
    refine ⟨?_, ?_, ?_⟩
    · rw [hq, ← hperm.length_eq, hzero]
    · intro i hi
      exact absurd hi (by omega)
    · intro k b hk _
      rw [hq]
      exact hk
  · have hq : processBookingQueue store tid now =
        (applyBMarks store (bmarksOf (pendingBookingsFor store tid) []) now,
          (pendingBookingsFor store tid).length) := by
      simp only [processBookingQueue]
      rw [if_neg hzero, processBookingsLoop_eq, Nat.zero_add]
    have hmsnodup :
        ((bmarksOf (pendingBookingsFor store tid) []).map Prod.fst).Nodup := by
      rw [bmarksOf_map_fst]
      exact hpid
    refine ⟨?_, ?_, ?_⟩
    · rw [hq, ← hperm.length_eq]
    · intro i hi
      have hgd : (pendingBookingsFor store tid).getD i default =
          (pendingBookingsFor store tid)[i] := by
        rw [List.getD_eq_getElem?_getD, List.getElem?_eq_getElem hi]
        rfl
      have hmem_pend : (pendingBookingsFor store tid).getD i default ∈
          pendingBookingsFor store tid := by
        rw [hgd]
        exact List.getElem_mem hi
      have hmem_store : (pendingBookingsFor store tid).getD i default ∈
          store :=
        List.mem_of_mem_filter (hperm.mem_iff.mp hmem_pend)
      have hlook : lookupId store
          ((pendingBookingsFor store tid).getD i default).id =
          some ((pendingBookingsFor store tid).getD i default) :=
        lookupId_of_nodup store hids _ hmem_store
      have hmapped : lookupId
          (applyBMarks store (bmarksOf (pendingBookingsFor store tid) []) now)
          ((pendingBookingsFor store tid).getD i default).id =
          some (bMarkFun (bmarksOf (pendingBookingsFor store tid) []) now
            ((pendingBookingsFor store tid).getD i default)) := by
        rw [applyBMarks_eq_map, lookupId_map_bMarkFun, hlook]
        rfl
      constructor
      · intro hno
        have hconf := (bmarksOf_confirmed_iff
          (pendingBookingsFor store tid) [] i hi).mpr ⟨rfl, hno⟩
        have hmm := List.getElem?_mem hconf
        rw [hq]
        exact hmapped.trans
          (by rw [bMarkFun_mem _ _ _ _ hmsnodup hmm])
      · intro hyes
        obtain ⟨st, hst, hor⟩ := bmarksOf_status_exists
          (pendingBookingsFor store tid) [] i hi
        have hstr : st = BStatus.rejected := by
          rcases hor with hcf | hrj
          · exfalso
            apply hyes
            exact ((bmarksOf_confirmed_iff
              (pendingBookingsFor store tid) [] i hi).mp (hcf ▸ hst)).2
          · exact hrj
        rw [hstr] at hst
        have hmm := List.getElem?_mem hst
        rw [hq]
        exact hmapped.trans
          (by rw [bMarkFun_mem _ _ _ _ hmsnodup hmm])
    · intro k b hk hnb
      rw [hq]
      show (applyBMarks store _ now)[k]? = some b
      rw [applyBMarks_eq_map, List.getElem?_map, hk]
      show some (bMarkFun _ now b) = some b
      rw [bMarkFun_not_mem]
      rw [bmarksOf_map_fst]
      intro hmm
      obtain ⟨b2, hb2mem, hb2id⟩ := List.mem_map.mp hmm
      have hb2f := hperm.subset hb2mem
      have hb2props := List.mem_filter.mp hb2f
      have hbmem : b ∈ store := List.getElem?_mem hk
      have hbeq : b2 = b :=
        List.inj_on_of_nodup_map hids hb2props.1 hbmem hb2id
      apply hnb
      rw [← hbeq]
      have := hb2props.2
      rw [Bool.and_eq_true, beq_iff_eq, beq_iff_eq] at this
      exact this

/-- C8: one `process_booking_queue` pass (with distinct primary keys)
resolves every booking pending for the trainer at its start: the i-th
booking of the pass order is confirmed exactly when no earlier booking of
the pass requested the same `(date, time)` slot (equivalently, when that
slot was not already confirmed in this pass) and rejected otherwise, so
none stays pending; the returned count equals the number of initially
pending bookings; all other rows are untouched. -/
theorem C8_exhaustive_pass (store : List Booking) (tid now : Nat)
    (hids : (store.map (·.id)).Nodup) :
    (processBookingQueue store tid now).2 =
      (store.filter fun b =>
        b.trainer == tid && b.status == BStatus.pending).length ∧
    (∀ i, i < (pendingBookingsFor store tid).length →
      ((∀ j, j < i →
          ¬(((pendingBookingsFor store tid).getD j default).date =
              ((pendingBookingsFor store tid).getD i default).date ∧
            ((pendingBookingsFor store tid).getD j default).time =
              ((pendingBookingsFor store tid).getD i default).time)) →
        lookupId (processBookingQueue store tid now).1
            ((pendingBookingsFor store tid).getD i default).id =
          some { (pendingBookingsFor store tid).getD i default with
            status := BStatus.confirmed, processedAt := some now }) ∧
      ((¬ ∀ j, j < i →
          ¬(((pendingBookingsFor store tid).getD j default).date =
              ((pendingBookingsFor store tid).getD i default).date ∧
            ((pendingBookingsFor store tid).getD j default).time =
              ((pendingBookingsFor store tid).getD i default).time)) →
        lookupId (processBookingQueue store tid now).1
            ((pendingBookingsFor store tid).getD i default).id =
          some { (pendingBookingsFor store tid).getD i default with
            status := BStatus.rejected, processedAt := some now })) ∧
    (∀ (k : Nat) (b : Booking), store[k]? = some b →
      ¬(b.trainer = tid ∧ b.status = BStatus.pending) →
      (processBookingQueue store tid now).1[k]? = some b) :=
  processBookingQueue_spec store tid now hids

/-- C8 witness: trainer 7 with pending bookings scoring 100 and 200 on
slot (1,9) and 150 on slot (1,10); the pass processes scores 100, 150, 200
in order, confirms the first two, rejects the 200 one, and counts 3. -/
theorem C8_witness :
    (processBookingQueue
        [⟨1, 7, 1, 9, 100, 0, BStatus.pending, none⟩,
         ⟨2, 7, 1, 9, 200, 1, BStatus.pending, none⟩,
         ⟨3, 7, 1, 10, 150, 2, BStatus.pending, none⟩] 7 5).2 = 3 ∧
    lookupId (processBookingQueue
        [⟨1, 7, 1, 9, 100, 0, BStatus.pending, none⟩,
         ⟨2, 7, 1, 9, 200, 1, BStatus.pending, none⟩,
         ⟨3, 7, 1, 10, 150, 2, BStatus.pending, none⟩] 7 5).1 1 =
      some ⟨1, 7, 1, 9, 100, 0, BStatus.confirmed, some 5⟩ ∧
    lookupId (processBookingQueue
        [⟨1, 7, 1, 9, 100, 0, BStatus.pending, none⟩,
         ⟨2, 7, 1, 9, 200, 1, BStatus.pending, none⟩,
         ⟨3, 7, 1, 10, 150, 2, BStatus.pending, none⟩] 7 5).1 3 =
      some ⟨3, 7, 1, 10, 150, 2, BStatus.confirmed, some 5⟩ ∧
    lookupId (processBookingQueue
        [⟨1, 7, 1, 9, 100, 0, BStatus.pending, none⟩,
         ⟨2, 7, 1, 9, 200, 1, BStatus.pending, none⟩,
         ⟨3, 7, 1, 10, 150, 2, BStatus.pending, none⟩] 7 5).1 2 =
      some ⟨2, 7, 1, 9, 200, 1, BStatus.rejected, some 5⟩ := by
  have h := C8_exhaustive_pass
    [⟨1, 7, 1, 9, 100, 0, BStatus.pending, none⟩,
     ⟨2, 7, 1, 9, 200, 1, BStatus.pending, none⟩,
     ⟨3, 7, 1, 10, 150, 2, BStatus.pending, none⟩] 7 5 (by decide)
  have h0 := (h.2.1 0 (by decide)).1 (by decide)
  have h1 := (h.2.1 1 (by decide)).1 (by decide)
  have h2 := (h.2.1 2 (by decide)).2 (by decide)
  exact ⟨h.1.trans (by decide), h0, h1, h2⟩

/-! ### Claim C2 — the per-slot exclusivity invariant across passes

The conflict list `confirmed_times` starts empty on every pass and only
tracks slots confirmed within the current pass; bookings confirmed by
earlier passes are never consulted.  A second pass therefore confirms a
new pending booking for an already-confirmed slot. -/

/-- C2 counterexample: trainer 7's booking 1 for slot (1,9) is confirmed
by a first pass; a new pending booking 2 for the same slot is then
created, and a second pass confirms it too, reaching a state with two
confirmed bookings for the same `(trainerId, requestedDate,
requestedTime)` key. -/
theorem C2_counterexample :
    (runBook [⟨1, 7, 1, 9, 100, 0, BStatus.pending, none⟩]
        [BookOp.pass 7 0,
         BookOp.newBooking ⟨2, 7, 1, 9, 100, 1, BStatus.pending, none⟩,
         BookOp.pass 7 1])[0]? =
      some ⟨1, 7, 1, 9, 100, 0, BStatus.confirmed, some 0⟩ ∧
    (runBook [⟨1, 7, 1, 9, 100, 0, BStatus.pending, none⟩]
        [BookOp.pass 7 0,
         BookOp.newBooking ⟨2, 7, 1, 9, 100, 1, BStatus.pending, none⟩,
         BookOp.pass 7 1])[1]? =
      some ⟨2, 7, 1, 9, 100, 1, BStatus.confirmed, some 1⟩ := by
  refine ⟨by decide, by decide⟩

/-- C2 amended: the exclusivity invariant holds only within a single pass:
among the bookings one `process_booking_queue` pass processes (distinct
primary keys assumed), a booking whose `(date, time)` slot already
occurred earlier in the pass order is rejected, so at most one booking per
slot is confirmed per pass.  Across passes the invariant fails, because
each pass starts with an empty `confirmed_times`. -/
theorem C2_single_pass_slot_exclusivity (store : List Booking)
    (tid now : Nat) (hids : (store.map (·.id)).Nodup) :
    ∀ i j, i < j → j < (pendingBookingsFor store tid).length →
      ((pendingBookingsFor store tid).getD i default).date =
        ((pendingBookingsFor store tid).getD j default).date →
      ((pendingBookingsFor store tid).getD i default).time =
        ((pendingBookingsFor store tid).getD j default).time →
      lookupId (processBookingQueue store tid now).1
          ((pendingBookingsFor store tid).getD j default).id =
        some { (pendingBookingsFor store tid).getD j default with
          status := BStatus.rejected, processedAt := some now } := by
  intro i j hij hj hd ht
  exact ((processBookingQueue_spec store tid now hids).2.1 j hj).2
    (fun hall => hall i hij ⟨hd, ht⟩)

/-- C2 witness: two same-slot pending bookings of trainer 7; the pass
rejects the booking that comes later in the pass order. -/
theorem C2_witness :
    lookupId (processBookingQueue
        [⟨1, 7, 1, 9, 100, 0, BStatus.pending, none⟩,
         ⟨2, 7, 1, 9, 200, 1, BStatus.pending, none⟩] 7 3).1 2 =
      some ⟨2, 7, 1, 9, 200, 1, BStatus.rejected, some 3⟩ :=
  C2_single_pass_slot_exclusivity
    [⟨1, 7, 1, 9, 100, 0, BStatus.pending, none⟩,
     ⟨2, 7, 1, 9, 200, 1, BStatus.pending, none⟩] 7 3 (by decide)
    0 1 (by decide) (by decide) (by decide) (by decide)

/-! ### Claim C4 — the processing order of one scheduling pass

`process_booking_queue` orders the pending bookings with
`order_by(priority_score)`, which replaces the model's `Meta.ordering =
['priority_score', 'created_at']`; ties on `priority_score` are therefore
returned in whatever order the underlying table provides (modelled here as
the store's row order via a stable sort), not by `created_at`. -/

/-- C4 counterexample: two equal-score pending bookings stored with the
later-created row first: the pass order keeps the row order, while the
spec's `priorityScore`-then-`createdAt` order would put the earlier-created
booking first. -/
theorem C4_counterexample :
    pendingBookingsFor
        [⟨1, 7, 1, 9, 100, 2, BStatus.pending, none⟩,
         ⟨2, 7, 2, 10, 100, 1, BStatus.pending, none⟩] 7 ≠
      specBookingOrder
        [⟨1, 7, 1, 9, 100, 2, BStatus.pending, none⟩,
         ⟨2, 7, 2, 10, 100, 1, BStatus.pending, none⟩] 7 := by
  decide

/-- C4 amended: within one pass the trainer's pending bookings are
processed in `priorityScore`-ascending order — the processing order is a
permutation of the pending rows, sorted by score, and any two pending rows
already in score order in the table (in particular any two rows with equal
scores, in row order) keep their relative order; `createdAt` plays no
part. -/
theorem C4_processing_order (store : List Booking) (tid : Nat) :
    List.Sorted (fun a b => a.score ≤ b.score)
      (pendingBookingsFor store tid) ∧
    (pendingBookingsFor store tid).Perm
      (store.filter fun b =>
        b.trainer == tid && b.status == BStatus.pending) ∧
    ∀ a b : Booking, a.score ≤ b.score →
      List.Sublist [a, b]
        (store.filter fun b =>
          b.trainer == tid && b.status == BStatus.pending) →
      List.Sublist [a, b] (pendingBookingsFor store tid) := by
  refine ⟨?_, ?_, ?_⟩
  · rw [pendingBookingsFor]
    exact List.sorted_insertionSort _ _
  · rw [pendingBookingsFor]
    exact List.perm_insertionSort _ _
  · intro a b hab hs
    rw [pendingBookingsFor]
    exact List.pair_sublist_insertionSort hab hs

/-- C4 witness: applied to the counterexample store, the amended theorem
keeps the equal-score bookings in row order (booking 1 before booking 2)
in the pass order. -/
theorem C4_witness :
    List.Sorted (fun a b => a.score ≤ b.score)
      (pendingBookingsFor
        [⟨1, 7, 1, 9, 100, 2, BStatus.pending, none⟩,
         ⟨2, 7, 2, 10, 100, 1, BStatus.pending, none⟩] 7) ∧
    List.Sublist
      [⟨1, 7, 1, 9, 100, 2, BStatus.pending, none⟩,
       ⟨2, 7, 2, 10, 100, 1, BStatus.pending, none⟩]
      (pendingBookingsFor
        [⟨1, 7, 1, 9, 100, 2, BStatus.pending, none⟩,
         ⟨2, 7, 2, 10, 100, 1, BStatus.pending, none⟩] 7) :=
  ⟨(C4_processing_order
      [⟨1, 7, 1, 9, 100, 2, BStatus.pending, none⟩,
       ⟨2, 7, 2, 10, 100, 1, BStatus.pending, none⟩] 7).1,
    (C4_processing_order
      [⟨1, 7, 1, 9, 100, 2, BStatus.pending, none⟩,
       ⟨2, 7, 2, 10, 100, 1, BStatus.pending, none⟩] 7).2.2
      ⟨1, 7, 1, 9, 100, 2, BStatus.pending, none⟩
      ⟨2, 7, 2, 10, 100, 1, BStatus.pending, none⟩
      (by decide) (by decide)⟩

end FT
